import Mathlib

/-!
Verification of the fuzzy clothing-price matcher (`src/pricing/model.py`).

Text is modelled as `List Char` (a Python `str` is a sequence of Unicode code
points), floats as `ℚ` (every quantity the matcher computes is a ratio of
small integers; we model real arithmetic exactly), and JSON payloads by an
explicit inductive type.  Remote fetches are injected as a function returning
either a `RemoteLookupError` outcome or a decoded payload, mirroring the
`http_get` dependency seam of `ClothingPriceModel.__init__`.  Functions that
in Python perform a remote call additionally return the list of query strings
passed to `http_get`, so that "no remote call is made" is a statable property.
-/

namespace Pricing

/-! ## Character classes (ASCII code-point arithmetic) -/

/-- Membership in `[a-z0-9]`, the character class kept by
`re.sub(r"[^a-z0-9]+", " ", ...)` in `_normalize_text`. -/
def isLowerAlnum (c : Char) : Bool :=
  (97 ≤ c.toNat && c.toNat ≤ 122) || (48 ≤ c.toNat && c.toNat ≤ 57)

/-- Python `str.isspace` restricted to the ASCII whitespace characters
(space, tab, newline, vertical tab, form feed, carriage return), the ones
`str.split()` and `str.strip()` split and strip on. -/
def pyIsSpace (c : Char) : Bool :=
  c.toNat = 32 || (9 ≤ c.toNat && c.toNat ≤ 13)

/-- Python `str.lower` on the ASCII range (the input of the `.lower()` call in
`_normalize_text` is always pure ASCII, having just been re-encoded with
`encode("ascii", "ignore")`). -/
def pyLower (c : Char) : Char :=
  if 65 ≤ c.toNat ∧ c.toNat ≤ 90 then Char.ofNat (c.toNat + 32) else c

/-! ## Text normalization (`_normalize_text`) -/

/-- Finite per-character model of
`unicodedata.normalize("NFKD", s).encode("ascii", "ignore").decode("ascii")`:
ASCII code points have no decomposition and survive the re-encoding unchanged;
a sample of Latin accented letters decompose to their base letter followed by
a combining mark that the ASCII re-encoding drops; all remaining non-ASCII
code points are modelled as dropped. -/
def latinBase : List (Char × Char) :=
  [('á', 'a'), ('à', 'a'), ('â', 'a'), ('ä', 'a'), ('ã', 'a'),
   ('é', 'e'), ('è', 'e'), ('ê', 'e'), ('ë', 'e'),
   ('í', 'i'), ('ì', 'i'), ('î', 'i'), ('ï', 'i'),
   ('ó', 'o'), ('ò', 'o'), ('ô', 'o'), ('ö', 'o'), ('õ', 'o'),
   ('ú', 'u'), ('ù', 'u'), ('û', 'u'), ('ü', 'u'),
   ('ñ', 'n'), ('ç', 'c'), ('ý', 'y')]

/-- NFKD decomposition followed by ASCII re-encoding with `errors="ignore"`,
one input code point at a time (see `latinBase`). -/
def nfkdAscii (c : Char) : List Char :=
  if c.toNat < 128 then [c]
  else
    match latinBase.find? (fun kv => kv.1 == c) with
    | some kv => [kv.2]
    | none => []

/-- Worker for `re.sub(r"[^a-z0-9]+", " ", s)`: every maximal run of
characters outside `[a-z0-9]` becomes a single space.  The flag records
whether we are inside such a run. -/
def subNonAlnumGo : Bool → List Char → List Char
  | _, [] => []
  | inRun, c :: cs =>
    if isLowerAlnum c then c :: subNonAlnumGo false cs
    else if inRun then subNonAlnumGo true cs
    else ' ' :: subNonAlnumGo true cs

/-- `re.sub(r"[^a-z0-9]+", " ", s)`. -/
def subNonAlnum (s : List Char) : List Char :=
  subNonAlnumGo false s

/-- Worker for Python `str.split()` (split on whitespace runs, dropping empty
pieces); `acc` is the current word, reversed. -/
def pySplitGo : List Char → List Char → List (List Char)
  | acc, [] => if acc = [] then [] else [acc.reverse]
  | acc, c :: cs =>
    if pyIsSpace c then
      if acc = [] then pySplitGo [] cs else acc.reverse :: pySplitGo [] cs
    else pySplitGo (c :: acc) cs

/-- Python `str.split()` with no arguments. -/
def pySplit (s : List Char) : List (List Char) :=
  pySplitGo [] s

/-- Python `" ".join(ws)`. -/
def joinSpace : List (List Char) → List Char
  | [] => []
  | [w] => w
  | w :: ws => w ++ ' ' :: joinSpace ws

/-- Python `str.strip()` (ASCII whitespace at both ends). -/
def pyStrip (s : List Char) : List Char :=
  ((s.dropWhile pyIsSpace).reverse.dropWhile pyIsSpace).reverse

/-- `_normalize_text`: NFKD-decompose, drop non-ASCII, lowercase, collapse
each run outside `[a-z0-9]` to one space, then `" ".join(s.split())`. -/
def _normalize_text (value : List Char) : List Char :=
  joinSpace (pySplit (subNonAlnum ((value.flatMap nfkdAscii).map pyLower)))

/-! ## Token-set similarity (`_token_similarity`) -/

/-- `_token_similarity`: Jaccard index of the whitespace-token sets, `0.0`
when either token set is empty. -/
def _token_similarity (candidate query : List Char) : ℚ :=
  let candidate_tokens := (pySplit candidate).toFinset
  let query_tokens := (pySplit query).toFinset
  if candidate_tokens = ∅ ∨ query_tokens = ∅ then 0
  else ((candidate_tokens ∩ query_tokens).card : ℚ) /
    ((candidate_tokens ∪ query_tokens).card : ℚ)

/-! ## Sequence similarity (`difflib.SequenceMatcher(None, a, b).ratio()`)

The matcher is constructed with `isjunk=None`, and we model the regime in
which the autojunk popularity heuristic is inert (it only activates for
second arguments of 200 or more characters).  Without junk,
`find_longest_match(alo, ahi, blo, bhi)` returns the longest block `k` with
`a[i:i+k] == b[j:j+k]`, ties broken by least `i`, then least `j`; we compute
it by direct search over starting positions. -/

/-- Length of the longest common prefix of two lists. -/
def commonPrefixLen : List Char → List Char → Nat
  | [], _ => 0
  | _ :: _, [] => 0
  | x :: xs, y :: ys => if x = y then commonPrefixLen xs ys + 1 else 0

/-- Python slice `a[lo:hi]`. -/
def seqSlice (a : List Char) (lo hi : Nat) : List Char :=
  (a.take hi).drop lo

/-- Length of the maximal matching run of `a[i:ahi]` against `b[j:bhi]`
starting at positions `i`, `j`. -/
def runLen (a b : List Char) (ahi bhi i j : Nat) : Nat :=
  commonPrefixLen (seqSlice a i ahi) (seqSlice b j bhi)

/-- `SequenceMatcher.find_longest_match` (no junk): the triple `(i, j, k)`
with maximal `k`, minimal `i` among those, minimal `j` among those.  Scanning
candidates in lexicographic order of `(i, j)` and keeping the first strict
maximum realises exactly that tie-breaking. -/
def findLongestMatch (a b : List Char) (alo ahi blo bhi : Nat) : Nat × Nat × Nat :=
  ((List.range' alo (ahi - alo)).flatMap fun i =>
      (List.range' blo (bhi - blo)).map fun j => (i, j, runLen a b ahi bhi i j)).foldl
    (fun best cand => if cand.2.2 > best.2.2 then cand else best) (alo, blo, 0)

/-- `SequenceMatcher.get_matching_blocks` restricted to `(alo, ahi, blo, bhi)`:
recursively split around the longest match.  The recursion is driven by fuel;
each recursive call strictly shrinks `(ahi - alo) + (bhi - blo)`, so any fuel
of at least that sum reproduces the unbounded recursion.  (The adjacent-block
merging and the final `(la, lb, 0)` sentinel of the Python implementation do
not change the total matched size, which is all `ratio()` consumes.) -/
def matchingBlocksF (a b : List Char) : Nat → Nat → Nat → Nat → Nat → List (Nat × Nat × Nat)
  | 0, _, _, _, _ => []
  | fuel + 1, alo, ahi, blo, bhi =>
    let best := findLongestMatch a b alo ahi blo bhi
    if best.2.2 = 0 then []
    else
      matchingBlocksF a b fuel alo best.1 blo best.2.1 ++
        best :: matchingBlocksF a b fuel (best.1 + best.2.2) ahi (best.2.1 + best.2.2) bhi

/-- Total size of the matching blocks (the `matches` of `ratio`). -/
def blocksSum (l : List (Nat × Nat × Nat)) : Nat :=
  (l.map fun x => x.2.2).sum

/-- `SequenceMatcher(None, a, b).ratio() = 2*M/T` where `M` is the total size
of the matched blocks and `T = len(a) + len(b)`; `1.0` when `T = 0`. -/
def sequenceRatio (a b : List Char) : ℚ :=
  let total := a.length + b.length
  if total = 0 then 1
  else 2 * (blocksSum (matchingBlocksF a b (a.length + b.length) 0 a.length 0 b.length) : ℚ) /
    (total : ℚ)

/-- `_title_similarity`: `0.7 * token_score + 0.3 * sequence_score`. -/
def _title_similarity (candidate query : List Char) : ℚ :=
  0.7 * _token_similarity candidate query + 0.3 * sequenceRatio candidate query

/-! ## JSON payloads and candidate parsing (`_fetch_products`) -/

/-- Decoded JSON value, as handed to the matcher by the (possibly injected)
`http_get` callable. -/
inductive Json where
  | obj : List (List Char × Json) → Json
  | arr : List Json → Json
  | str : List Char → Json
  | num : ℚ → Json
  | bool : Bool → Json
  | null : Json

/-- `dict.get(key)` on a decoded JSON object (keys of a Python dict are
unique, so first match is the match). -/
def jsonGet (fields : List (List Char × Json)) (key : List Char) : Option Json :=
  (fields.find? fun kv => kv.1 == key).map fun kv => kv.2

def keyProducts : List Char := "products".toList
def keyBrand : List Char := "brand".toList
def keyTitle : List Char := "title".toList
def keyPrice : List Char := "price".toList
def strTrue : List Char := "True".toList
def strFalse : List Char := "False".toList
def strNone : List Char := "None".toList
def strList : List Char := "[...]".toList
def strDict : List Char := "(dict)".toList

def natChars (n : Nat) : List Char := Nat.toDigits 10 n

def intChars : Int → List Char
  | .ofNat n => natChars n
  | .negSucc n => '-' :: natChars (n + 1)

/-- Python `str(...)` of a decoded JSON value.  Exact on strings, booleans,
`None` and integral numbers — the only shapes the remote product schema
delivers for `brand`/`title` (spec section 6).  Non-integral numbers and
containers are rendered schematically (their Python `repr` is a non-empty
string of mostly non-alphanumeric characters, which normalization would
discard anyway). -/
def pyStr : Json → List Char
  | .str s => s
  | .bool b => if b then strTrue else strFalse
  | .null => strNone
  | .num q => if q.den = 1 then intChars q.num else intChars q.num ++ '.' :: natChars q.den
  | .arr _ => strList
  | .obj _ => strDict

/-- All-digit run folded to its value; fails on any non-digit. -/
def digitsVal (l : List Char) : Option Nat :=
  l.foldl
    (fun acc c =>
      match acc with
      | none => none
      | some v => if c.isDigit then some (v * 10 + (c.toNat - 48)) else none)
    (some 0)

/-- Unsigned decimal accepted by Python `float(...)`: `digits`, `digits.digits`,
`digits.` or `.digits` (exponents, `inf` and `nan` are outside the remote
schema and not modelled). -/
def parseDec (s : List Char) : Option ℚ :=
  match s.splitOn '.' with
  | [ip] =>
    if ip = [] then none else (digitsVal ip).map fun n => (n : ℚ)
  | [ip, fp] =>
    if ip = [] ∧ fp = [] then none
    else
      match digitsVal ip, digitsVal fp with
      | some n, some f => some ((n : ℚ) + (f : ℚ) / (10 : ℚ) ^ fp.length)
      | _, _ => none
  | _ => none

/-- Python `float(s)` on a string (whitespace-stripped, optional sign). -/
def pyFloatOfString (s : List Char) : Option ℚ :=
  match pyStrip s with
  | '-' :: rest => (parseDec rest).map Neg.neg
  | '+' :: rest => parseDec rest
  | other => parseDec other

/-- Python `float(x)` as used on the `price` field: numbers convert exactly,
booleans to 0/1, numeric strings parse; `None`, lists and dicts raise
`TypeError`, which the surrounding `except (TypeError, ValueError)` clause
turns into a skip — both failure modes are `none` here. -/
def pyFloat : Json → Option ℚ
  | .num q => some q
  | .bool b => some (if b then 1 else 0)
  | .str s => pyFloatOfString s
  | _ => none

/-- Internal product record (`_Product`). -/
structure _Product where
  brand : List Char
  title : List Char
  price : ℚ
deriving DecidableEq

/-- One iteration of the candidate-parsing loop of `_fetch_products`:
non-dict entries are skipped; `brand`/`title` are `str(...)`-converted and
stripped; entries with empty brand, empty title, absent or `None` price, or a
price on which `float(...)` raises, are skipped. -/
def parseProduct (item : Json) : Option _Product :=
  match item with
  | .obj fields =>
    let brand_value := pyStrip (pyStr ((jsonGet fields keyBrand).getD (.str [])))
    let title_value := pyStrip (pyStr ((jsonGet fields keyTitle).getD (.str [])))
    if brand_value = [] ∨ title_value = [] then none
    else
      match jsonGet fields keyPrice with
      | none => none
      | some .null => none
      | some pv =>
        match pyFloat pv with
        | none => none
        | some price => some ⟨brand_value, title_value, price⟩
  | _ => none

/-- Python iteration over the value found under `"products"`: lists iterate
their elements, strings their characters, dicts their keys; numbers, booleans
and `None` are not iterable (`TypeError`, uncaught at this point). -/
def pyIterOpt : Json → Option (List Json)
  | .arr xs => some xs
  | .str s => some (s.map fun c => .str [c])
  | .obj fs => some (fs.map fun kv => .str kv.1)
  | _ => none

/-- `payload.get("products", []) if isinstance(payload, dict) else []`. -/
def productsValue (payload : Json) : Json :=
  match payload with
  | .obj fields => (jsonGet fields keyProducts).getD (.arr [])
  | _ => .arr []

/-! ## The matcher (`ClothingPriceModel`) -/

/-- Outcome of one `http_get` invocation: either the callable raised
`RemoteLookupError` or it returned a decoded payload. -/
inductive FetchOutcome where
  | remoteError : FetchOutcome
  | payload : Json → FetchOutcome

/-- The injected fetch capability: `(url, params["q"], limit, timeout)`.
(The Python code passes the limit as `str(self.limit)` inside the params
dict; the stringification is pure formatting and elided.) -/
def HttpGet : Type := List Char → List Char → Int → ℚ → FetchOutcome

/-- Result of `_fetch_products`: the remote error propagating to the caller,
an uncaught `TypeError` from iterating a non-iterable `products` value, or
the parsed candidate list. -/
inductive FetchResult where
  | remoteError : FetchResult
  | typeError : FetchResult
  | ok : List _Product → FetchResult
deriving DecidableEq

/-- Matcher configuration (immutable after construction). -/
structure ClothingPriceModel where
  base_url : List Char
  limit : Int
  timeout : ℚ
  http_get : HttpGet

/-- `ClothingPriceModel.__init__`: raises `ValueError` (modelled as `.error`
with the message) on non-positive limit or timeout, otherwise produces the
matcher.  The default network-backed `http_get` lives outside the model; the
injected dependency seam is the explicit parameter, as spec section 9
requires. -/
def ClothingPriceModel.init (base_url : List Char) (limit : Int) (timeout : ℚ)
    (http_get : HttpGet) : Except (List Char) ClothingPriceModel :=
  if limit ≤ 0 then .error "limit must be a positive integer".toList
  else if timeout ≤ 0 then .error "timeout must be positive".toList
  else .ok ⟨base_url, limit, timeout, http_get⟩

/-- `f"{brand} {title}".strip()`, the `q` parameter of the remote request. -/
def queryString (brand title : List Char) : List Char :=
  pyStrip (brand ++ ' ' :: title)

/-- `_fetch_products`; the second component is the list of query strings that
were passed to `http_get` (always exactly one here). -/
def ClothingPriceModel._fetch_products (m : ClothingPriceModel) (brand title : List Char) :
    FetchResult × List (List Char) :=
  let query := queryString brand title
  let outcome : FetchResult :=
    match m.http_get m.base_url query m.limit m.timeout with
    | .remoteError => .remoteError
    | .payload payload =>
      match pyIterOpt (productsValue payload) with
      | none => .typeError
      | some items => .ok (items.filterMap parseProduct)
  (outcome, [query])

/-- `brand_score`: `1.0` on exact normalized-brand equality, otherwise token
similarity of the normalized brands. -/
def brandScore (normalized_brand : List Char) (p : _Product) : ℚ :=
  if _normalize_text p.brand = normalized_brand then 1
  else _token_similarity (_normalize_text p.brand) normalized_brand

/-- `title_score` of a candidate against the normalized query title. -/
def titleScore (normalized_title : List Char) (p : _Product) : ℚ :=
  _title_similarity (_normalize_text p.title) normalized_title

/-- Body of the candidate loop of `_search_single` for one product: `none`
when one of the two `continue` branches fires (brand score below threshold
without exact brand equality, or title score below threshold), otherwise the
combined score `0.5 * brand_score + 0.5 * title_score`. -/
def candidateScore (normalized_brand normalized_title : List Char) (min_score : ℚ)
    (p : _Product) : Option ℚ :=
  if brandScore normalized_brand p < min_score ∧ _normalize_text p.brand ≠ normalized_brand then
    none
  else if titleScore normalized_title p < min_score then none
  else some (0.5 * brandScore normalized_brand p + 0.5 * titleScore normalized_title p)

/-- The candidate scan of `_search_single`: fold over the products keeping
`(best_product, best_score)`.  `none` plays the role of the initial
`(None, -inf)` state, which the first surviving candidate always replaces;
a later candidate replaces the best one only on a strictly greater combined
score (first seen wins ties). -/
def scanLoop (normalized_brand normalized_title : List Char) (min_score : ℚ) :
    List _Product → Option (_Product × ℚ) → Option (_Product × ℚ)
  | [], best => best
  | p :: ps, best =>
    match candidateScore normalized_brand normalized_title min_score p with
    | none => scanLoop normalized_brand normalized_title min_score ps best
    | some combined =>
      match best with
      | none => scanLoop normalized_brand normalized_title min_score ps (some (p, combined))
      | some b =>
        if combined > b.2 then
          scanLoop normalized_brand normalized_title min_score ps (some (p, combined))
        else scanLoop normalized_brand normalized_title min_score ps best

/-- `SearchResult` (the spec's MatchResult). -/
structure SearchResult where
  brand : List Char
  title : List Char
  price : ℚ
  score : ℚ
deriving DecidableEq

/-- Outcome of `_search_single`: a normal return (`.result`) or an uncaught
exception (`.crash`, the `TypeError` path of `_fetch_products`; the
`RemoteLookupError` path is caught and is a normal `.result none`). -/
inductive SearchOutcome where
  | crash : SearchOutcome
  | result : Option SearchResult → SearchOutcome
deriving DecidableEq

/-- `_search_single`; the second component is the trace of query strings
passed to `http_get` while processing this query. -/
def ClothingPriceModel._search_single (m : ClothingPriceModel) (brand title : List Char)
    (min_score : ℚ) : SearchOutcome × List (List Char) :=
  if brand = [] ∨ title = [] then (.result none, [])
  else
    let normalized_brand := _normalize_text brand
    let normalized_title := _normalize_text title
    let fetched := m._fetch_products brand title
    match fetched.1 with
    | .remoteError => (.result none, fetched.2)
    | .typeError => (.crash, fetched.2)
    | .ok products =>
      match scanLoop normalized_brand normalized_title min_score products none with
      | none => (.result none, fetched.2)
      | some best =>
        if best.2 < min_score then (.result none, fetched.2)
        else (.result (some ⟨best.1.brand, best.1.title, best.1.price, best.2⟩), fetched.2)

/-- `batch_search`: one `_search_single` per query, results appended in input
order; an uncaught exception from a query propagates (discarding the whole
batch), which the `Except` models.  The second component concatenates the
per-query `http_get` traces up to the point reached. -/
def ClothingPriceModel.batch_search (m : ClothingPriceModel)
    (queries : List (List Char × List Char)) (min_score : ℚ) :
    Except Unit (List (Option SearchResult)) × List (List Char) :=
  match queries with
  | [] => (.ok [], [])
  | q :: qs =>
    let one := m._search_single q.1 q.2 min_score
    match one.1 with
    | .crash => (.error (), one.2)
    | .result r =>
      let rest := m.batch_search qs min_score
      match rest.1 with
      | .error e => (.error e, one.2 ++ rest.2)
      | .ok rs => (.ok (r :: rs), one.2 ++ rest.2)

/-- The normal return value of a search outcome (meaningful when the outcome
is not a crash). -/
def resultOf : SearchOutcome → Option SearchResult
  | .crash => none
  | .result r => r

/-- The payload contract of spec sections 4.5 and 6: every successful fetch
decodes to a payload whose `products` value (when the payload is an object
that has one) is iterable.  Under this contract `_search_single` never
raises. -/
def WellFormedFetch (m : ClothingPriceModel) : Prop :=
  ∀ url q lim tmo p, m.http_get url q lim tmo = .payload p →
    (pyIterOpt (productsValue p)).isSome

/-! ## Concrete instances used in counterexamples and witnesses -/

def strQR : List Char := "q r".toList
def strQRS : List Char := "q r s".toList
def strAbCd : List Char := "ab cd".toList
def strAbZz : List Char := "ab zz".toList
def strAbCdEf : List Char := "ab cd ef".toList
def strAb : List Char := "ab".toList
def strCd : List Char := "cd".toList
def strPunct : List Char := "!?".toList

/-- Candidate whose brand is exactly the query brand `"q r"` but whose title
`"ab zz"` only loosely matches the query title `"ab cd"`
(title score `31/75 ≈ 0.413`, combined score `53/75 ≈ 0.707`). -/
def prodExact : Json :=
  .obj [(keyBrand, .str strQR), (keyTitle, .str strAbZz), (keyPrice, .num 1)]

/-- Candidate with near brand `"q r s"` (brand score `2/3`) and near title
`"ab cd ef"` (title score `136/195 ≈ 0.697`, combined score `133/195 ≈ 0.682`). -/
def prodNear : Json :=
  .obj [(keyBrand, .str strQRS), (keyTitle, .str strAbCdEf), (keyPrice, .num 2)]

def cexPayload : Json := .obj [(keyProducts, .arr [prodExact, prodNear])]

/-- Matcher whose remote always answers with `cexPayload`. -/
def cexModel : ClothingPriceModel := ⟨[], 10, 10, fun _ _ _ _ => .payload cexPayload⟩

/-- `prodExact` as a parsed `_Product`. -/
def prodExactP : _Product := ⟨strQR, strAbZz, 1⟩

/-- `prodNear` as a parsed `_Product`. -/
def prodNearP : _Product := ⟨strQRS, strAbCdEf, 2⟩

/-- At threshold `1/2` the exact-brand candidate is filtered on its title
score and `prodNear` wins; at threshold `0` both survive and `prodExact`
has the higher combined score. -/
def cexResNear : SearchResult := ⟨strQRS, strAbCdEf, 2, 133 / 195⟩

def cexResExact : SearchResult := ⟨strQR, strAbZz, 1, 53 / 75⟩

def simplePayload : Json :=
  .obj [(keyProducts,
    .arr [.obj [(keyBrand, .str strAb), (keyTitle, .str strCd), (keyPrice, .num 5)]])]

/-- Matcher whose remote always answers with one perfectly matching product. -/
def simpleModel : ClothingPriceModel := ⟨[], 10, 10, fun _ _ _ _ => .payload simplePayload⟩

def simpleProdP : _Product := ⟨strAb, strCd, 5⟩

def simpleResult : SearchResult := ⟨strAb, strCd, 5, 1⟩

/-- Matcher whose remote always raises `RemoteLookupError`. -/
def failModel : ClothingPriceModel := ⟨[], 10, 10, fun _ _ _ _ => .remoteError⟩

/-- Matcher whose remote answers with a payload that is not a JSON object. -/
def noProductsModel : ClothingPriceModel := ⟨[], 10, 10, fun _ _ _ _ => .payload (.arr [])⟩

/-! ## Bounds on the similarity scores -/

lemma token_similarity_nonneg (a b : List Char) : 0 ≤ _token_similarity a b := by
  simp only [_token_similarity]
  split
  · exact le_refl 0
  · exact div_nonneg (Nat.cast_nonneg _) (Nat.cast_nonneg _)

lemma token_similarity_le_one (a b : List Char) : _token_similarity a b ≤ 1 := by
  simp only [_token_similarity]
  split
  · exact zero_le_one
  · rename_i h
    push_neg at h
    have hne : ((pySplit a).toFinset ∪ (pySplit b).toFinset).Nonempty := by
      obtain ⟨x, hx⟩ := Finset.nonempty_iff_ne_empty.mpr h.1
      exact ⟨x, Finset.mem_union_left _ hx⟩
    have hpos : (0 : ℚ) < (((pySplit a).toFinset ∪ (pySplit b).toFinset).card : ℚ) := by
      exact_mod_cast Finset.card_pos.mpr hne
    rw [div_le_one hpos]
    exact_mod_cast Finset.card_le_card Finset.inter_subset_union

lemma commonPrefixLen_le_left : ∀ xs ys : List Char, commonPrefixLen xs ys ≤ xs.length := by
  intro xs
  induction xs with
  | nil => intro ys; simp [commonPrefixLen]
  | cons x xs ih =>
    intro ys
    cases ys with
    | nil => simp [commonPrefixLen]
    | cons y ys =>
      simp only [commonPrefixLen, List.length_cons]
      split
      · have := ih ys; omega
      · omega

lemma commonPrefixLen_le_right : ∀ xs ys : List Char, commonPrefixLen xs ys ≤ ys.length := by
  intro xs
  induction xs with
  | nil => intro ys; simp [commonPrefixLen]
  | cons x xs ih =>
    intro ys
    cases ys with
    | nil => simp [commonPrefixLen]
    | cons y ys =>
      simp only [commonPrefixLen, List.length_cons]
      split
      · have := ih ys; omega
      · omega

lemma runLen_le_left (a b : List Char) (ahi bhi i j : Nat) :
    runLen a b ahi bhi i j ≤ ahi - i := by
  simp only [runLen, seqSlice]
  have h1 := commonPrefixLen_le_left ((a.take ahi).drop i) ((b.take bhi).drop j)
  have h2 : ((a.take ahi).drop i).length = (a.take ahi).length - i := List.length_drop i _
  have h3 : (a.take ahi).length ≤ ahi := by
    rw [List.length_take]; exact min_le_left _ _
  omega

lemma runLen_le_right (a b : List Char) (ahi bhi i j : Nat) :
    runLen a b ahi bhi i j ≤ bhi - j := by
  simp only [runLen, seqSlice]
  have h1 := commonPrefixLen_le_right ((a.take ahi).drop i) ((b.take bhi).drop j)
  have h2 : ((b.take bhi).drop j).length = (b.take bhi).length - j := List.length_drop j _
  have h3 : (b.take bhi).length ≤ bhi := by
    rw [List.length_take]; exact min_le_left _ _
  omega

lemma foldl_pick_prop {P : Nat × Nat × Nat → Prop} :
    ∀ (l : List (Nat × Nat × Nat)) (acc : Nat × Nat × Nat), P acc → (∀ x ∈ l, P x) →
      P (l.foldl (fun best cand => if cand.2.2 > best.2.2 then cand else best) acc) := by
  intro l
  induction l with
  | nil => intro acc hacc _; exact hacc
  | cons x xs ih =>
    intro acc hacc hall
    simp only [List.foldl_cons]
    apply ih
    · by_cases hcmp : x.2.2 > acc.2.2
      · simpa [hcmp] using hall x (List.mem_cons_self x xs)
      · simpa [hcmp] using hacc
    · intro y hy; exact hall y (List.mem_cons_of_mem _ hy)

lemma findLongestMatch_bounds (a b : List Char) (alo ahi blo bhi : Nat)
    (ha : alo ≤ ahi) (hb : blo ≤ bhi) :
    alo ≤ (findLongestMatch a b alo ahi blo bhi).1 ∧
    blo ≤ (findLongestMatch a b alo ahi blo bhi).2.1 ∧
    (findLongestMatch a b alo ahi blo bhi).1 + (findLongestMatch a b alo ahi blo bhi).2.2 ≤ ahi ∧
    (findLongestMatch a b alo ahi blo bhi).2.1 + (findLongestMatch a b alo ahi blo bhi).2.2 ≤ bhi := by
  simp only [findLongestMatch]
  apply foldl_pick_prop
    (P := fun u => alo ≤ u.1 ∧ blo ≤ u.2.1 ∧ u.1 + u.2.2 ≤ ahi ∧ u.2.1 + u.2.2 ≤ bhi)
  · show alo ≤ alo ∧ blo ≤ blo ∧ alo + 0 ≤ ahi ∧ blo + 0 ≤ bhi
    exact ⟨le_refl _, le_refl _, by omega, by omega⟩
  · intro x hx
    simp only [List.mem_flatMap, List.mem_map] at hx
    obtain ⟨i, hi, j, hj, rfl⟩ := hx
    rw [List.mem_range'_1] at hi
    rw [List.mem_range'_1] at hj
    have hr1 := runLen_le_left a b ahi bhi i j
    have hr2 := runLen_le_right a b ahi bhi i j
    show alo ≤ i ∧ blo ≤ j ∧ i + runLen a b ahi bhi i j ≤ ahi ∧
      j + runLen a b ahi bhi i j ≤ bhi
    exact ⟨by omega, by omega, by omega, by omega⟩

lemma matchingBlocksF_sum_le (a b : List Char) :
    ∀ (fuel alo ahi blo bhi : Nat), alo ≤ ahi → blo ≤ bhi →
      blocksSum (matchingBlocksF a b fuel alo ahi blo bhi) ≤ ahi - alo ∧
      blocksSum (matchingBlocksF a b fuel alo ahi blo bhi) ≤ bhi - blo := by
  intro fuel
  induction fuel with
  | zero => intro alo ahi blo bhi _ _; simp [matchingBlocksF, blocksSum]
  | succ n ih =>
    intro alo ahi blo bhi ha hb
    obtain ⟨h1, h2, h3, h4⟩ := findLongestMatch_bounds a b alo ahi blo bhi ha hb
    simp only [matchingBlocksF]
    split
    · simp [blocksSum]
    · have hL := ih alo (findLongestMatch a b alo ahi blo bhi).1 blo
        (findLongestMatch a b alo ahi blo bhi).2.1 h1 h2
      have hR := ih
        ((findLongestMatch a b alo ahi blo bhi).1 + (findLongestMatch a b alo ahi blo bhi).2.2)
        ahi
        ((findLongestMatch a b alo ahi blo bhi).2.1 + (findLongestMatch a b alo ahi blo bhi).2.2)
        bhi h3 h4
      simp only [blocksSum, List.map_append, List.map_cons, List.sum_append,
        List.sum_cons] at hL hR ⊢
      omega

lemma sequenceRatio_nonneg (a b : List Char) : 0 ≤ sequenceRatio a b := by
  simp only [sequenceRatio]
  split
  · exact zero_le_one
  · positivity

lemma sequenceRatio_le_one (a b : List Char) : sequenceRatio a b ≤ 1 := by
  simp only [sequenceRatio]
  split
  · exact le_refl 1
  · rename_i h
    have hm := matchingBlocksF_sum_le a b (a.length + b.length) 0 a.length 0 b.length
      (Nat.zero_le _) (Nat.zero_le _)
    have hNat : 2 * blocksSum (matchingBlocksF a b (a.length + b.length) 0 a.length 0 b.length) ≤
        a.length + b.length := by
      obtain ⟨hm1, hm2⟩ := hm
      omega
    have hpos : (0 : ℚ) < ((a.length + b.length : Nat) : ℚ) := by
      exact_mod_cast Nat.pos_of_ne_zero h
    rw [div_le_one hpos]
    exact_mod_cast hNat

lemma title_similarity_nonneg (a b : List Char) : 0 ≤ _title_similarity a b := by
  simp only [_title_similarity]
  have h1 := token_similarity_nonneg a b
  have h2 := sequenceRatio_nonneg a b
  have h3 : (0 : ℚ) ≤ 0.7 * _token_similarity a b := by
    apply mul_nonneg _ h1; norm_num
  have h4 : (0 : ℚ) ≤ 0.3 * sequenceRatio a b := by
    apply mul_nonneg _ h2; norm_num
  linarith

lemma title_similarity_le_one (a b : List Char) : _title_similarity a b ≤ 1 := by
  simp only [_title_similarity]
  have h1 := token_similarity_le_one a b
  have h2 := sequenceRatio_le_one a b
  have h3 : (0.7 : ℚ) * _token_similarity a b ≤ 0.7 * 1 := by
    apply mul_le_mul_of_nonneg_left h1; norm_num
  have h4 : (0.3 : ℚ) * sequenceRatio a b ≤ 0.3 * 1 := by
    apply mul_le_mul_of_nonneg_left h2; norm_num
  nlinarith

lemma brandScore_nonneg (nb : List Char) (p : _Product) : 0 ≤ brandScore nb p := by
  simp only [brandScore]
  split
  · exact zero_le_one
  · exact token_similarity_nonneg _ _

lemma brandScore_le_one (nb : List Char) (p : _Product) : brandScore nb p ≤ 1 := by
  simp only [brandScore]
  split
  · exact le_refl 1
  · exact token_similarity_le_one _ _

lemma titleScore_nonneg (nt : List Char) (p : _Product) : 0 ≤ titleScore nt p :=
  title_similarity_nonneg _ _

lemma titleScore_le_one (nt : List Char) (p : _Product) : titleScore nt p ≤ 1 :=
  title_similarity_le_one _ _

/-! ## The candidate filter and the scan loop -/

lemma candidateScore_eq_some {nb nt : List Char} {ms c : ℚ} {p : _Product}
    (h : candidateScore nb nt ms p = some c) :
    c = 0.5 * brandScore nb p + 0.5 * titleScore nt p ∧ ¬ titleScore nt p < ms := by
  simp only [candidateScore] at h
  split_ifs at h with h1 h2
  · exact ⟨(Option.some.injEq _ _ ▸ h).symm, h2⟩

lemma candidateScore_bounds {nb nt : List Char} {ms c : ℚ} {p : _Product}
    (h : candidateScore nb nt ms p = some c) : 0 ≤ c ∧ c ≤ 1 := by
  obtain ⟨hc, -⟩ := candidateScore_eq_some h
  have hb1 := brandScore_nonneg nb p
  have hb2 := brandScore_le_one nb p
  have ht1 := titleScore_nonneg nt p
  have ht2 := titleScore_le_one nt p
  constructor <;> rw [hc] <;> nlinarith

lemma candidateScore_mono {nb nt : List Char} {ms ms' c : ℚ} {p : _Product}
    (hle : ms' ≤ ms) (h : candidateScore nb nt ms p = some c) :
    candidateScore nb nt ms' p = some c := by
  simp only [candidateScore] at h ⊢
  split_ifs at h with h1 h2
  have hA : ¬(brandScore nb p < ms' ∧ _normalize_text p.brand ≠ nb) := by
    rintro ⟨hlt, hne⟩
    exact h1 ⟨lt_of_lt_of_le hlt hle, hne⟩
  have hB : ¬ titleScore nt p < ms' := fun hlt => h2 (lt_of_lt_of_le hlt hle)
  rw [if_neg hA, if_neg hB]
  exact h

/-- A candidate with exactly the query's normalized brand is never skipped by
the brand filter: its fate is decided by the title filter alone, with
`brand_score = 1`. -/
lemma candidateScore_exact_brand {nb nt : List Char} {ms : ℚ} {p : _Product}
    (hx : _normalize_text p.brand = nb) :
    candidateScore nb nt ms p =
      if titleScore nt p < ms then none else some (0.5 * 1 + 0.5 * titleScore nt p) := by
  have hbs : brandScore nb p = 1 := by simp [brandScore, hx]
  simp only [candidateScore, hbs, hx]
  rw [if_neg (by simp)]

lemma scanLoop_ge (nb nt : List Char) (ms : ℚ) :
    ∀ (ps : List _Product) (p : _Product) (s : ℚ),
      ∃ q s2, scanLoop nb nt ms ps (some (p, s)) = some (q, s2) ∧ s ≤ s2 := by
  intro ps
  induction ps with
  | nil => intro p s; exact ⟨p, s, rfl, le_refl s⟩
  | cons a ps ih =>
    intro p s
    cases hc : candidateScore nb nt ms a with
    | none => simpa [scanLoop, hc] using ih p s
    | some c =>
      by_cases hgt : c > s
      · obtain ⟨q, s2, hq, hs⟩ := ih a c
        exact ⟨q, s2, by simpa [scanLoop, hc, hgt] using hq, by linarith⟩
      · obtain ⟨q, s2, hq, hs⟩ := ih p s
        exact ⟨q, s2, by simpa [scanLoop, hc, hgt] using hq, hs⟩

lemma scanLoop_result_src (nb nt : List Char) (ms : ℚ) :
    ∀ (ps : List _Product) (best : Option (_Product × ℚ)) (p : _Product) (s : ℚ),
      scanLoop nb nt ms ps best = some (p, s) →
      best = some (p, s) ∨ (p ∈ ps ∧ candidateScore nb nt ms p = some s) := by
  intro ps
  induction ps with
  | nil => intro best p s h; exact .inl h
  | cons a ps ih =>
    intro best p s h
    cases hc : candidateScore nb nt ms a with
    | none =>
      simp only [scanLoop, hc] at h
      rcases ih best p s h with h1 | h2
      · exact .inl h1
      · exact .inr ⟨List.mem_cons_of_mem _ h2.1, h2.2⟩
    | some c =>
      cases best with
      | none =>
        simp only [scanLoop, hc] at h
        rcases ih (some (a, c)) p s h with h1 | h2
        · simp only [Option.some.injEq, Prod.mk.injEq] at h1
          obtain ⟨rfl, rfl⟩ := h1
          exact .inr ⟨List.mem_cons_self _ _, hc⟩
        · exact .inr ⟨List.mem_cons_of_mem _ h2.1, h2.2⟩
      | some bst =>
        simp only [scanLoop, hc] at h
        by_cases hgt : c > bst.2
        · rw [if_pos hgt] at h
          rcases ih (some (a, c)) p s h with h1 | h2
          · simp only [Option.some.injEq, Prod.mk.injEq] at h1
            obtain ⟨rfl, rfl⟩ := h1
            exact .inr ⟨List.mem_cons_self _ _, hc⟩
          · exact .inr ⟨List.mem_cons_of_mem _ h2.1, h2.2⟩
        · rw [if_neg hgt] at h
          rcases ih (some bst) p s h with h1 | h2
          · exact .inl h1
          · exact .inr ⟨List.mem_cons_of_mem _ h2.1, h2.2⟩

lemma scanLoop_lower_bound (nb nt : List Char) (ms : ℚ) :
    ∀ (ps : List _Product) (best : Option (_Product × ℚ)) (p : _Product) (c : ℚ),
      p ∈ ps → candidateScore nb nt ms p = some c →
      ∃ q s, scanLoop nb nt ms ps best = some (q, s) ∧ c ≤ s := by
  intro ps
  induction ps with
  | nil => intro best p c h; simp at h
  | cons a ps ih =>
    intro best p c hmem hc
    rcases List.mem_cons.mp hmem with rfl | htail
    · cases best with
      | none =>
        simp only [scanLoop, hc]
        exact scanLoop_ge nb nt ms ps p c
      | some bst =>
        simp only [scanLoop, hc]
        by_cases hgt : c > bst.2
        · rw [if_pos hgt]
          exact scanLoop_ge nb nt ms ps p c
        · rw [if_neg hgt]
          push_neg at hgt
          obtain ⟨q, s2, hq, hs⟩ := scanLoop_ge nb nt ms ps bst.1 bst.2
          exact ⟨q, s2, hq, le_trans hgt hs⟩
    · cases hca : candidateScore nb nt ms a with
      | none =>
        simp only [scanLoop, hca]
        exact ih best p c htail hc
      | some c2 =>
        cases best with
        | none =>
          simp only [scanLoop, hca]
          exact ih (some (a, c2)) p c htail hc
        | some bst =>
          simp only [scanLoop, hca]
          by_cases hgt : c2 > bst.2
          · rw [if_pos hgt]; exact ih (some (a, c2)) p c htail hc
          · rw [if_neg hgt]; exact ih (some bst) p c htail hc

/-! ## Normalization: canonical forms and idempotence -/

lemma isLowerAlnum_iff {c : Char} :
    isLowerAlnum c = true ↔ (97 ≤ c.toNat ∧ c.toNat ≤ 122) ∨ (48 ≤ c.toNat ∧ c.toNat ≤ 57) := by
  simp [isLowerAlnum]

lemma pyIsSpace_iff {c : Char} :
    pyIsSpace c = true ↔ c.toNat = 32 ∨ (9 ≤ c.toNat ∧ c.toNat ≤ 13) := by
  simp [pyIsSpace]

lemma isLowerAlnum_not_space {c : Char} (h : isLowerAlnum c = true) : pyIsSpace c = false := by
  rw [isLowerAlnum_iff] at h
  rw [← Bool.not_eq_true, pyIsSpace_iff]
  omega

lemma nfkdAscii_fixed {c : Char} (h : isLowerAlnum c = true ∨ c = ' ') : nfkdAscii c = [c] := by
  rcases h with h | rfl
  · rw [isLowerAlnum_iff] at h
    simp only [nfkdAscii]
    rw [if_pos (by omega)]
  · decide

lemma pyLower_fixed {c : Char} (h : isLowerAlnum c = true ∨ c = ' ') : pyLower c = c := by
  rcases h with h | rfl
  · rw [isLowerAlnum_iff] at h
    simp only [pyLower]
    rw [if_neg (by omega)]
  · decide

lemma flatMap_id_of_fixed : ∀ l : List Char, (∀ c ∈ l, nfkdAscii c = [c]) →
    l.flatMap nfkdAscii = l := by
  intro l
  induction l with
  | nil => intro _; simp
  | cons c cs ih =>
    intro h
    simp only [List.flatMap_cons, h c (List.mem_cons_self _ _),
      ih fun d hd => h d (List.mem_cons_of_mem _ hd)]
    rfl

lemma map_id_of_fixed : ∀ l : List Char, (∀ c ∈ l, pyLower c = c) → l.map pyLower = l := by
  intro l
  induction l with
  | nil => intro _; simp
  | cons c cs ih =>
    intro h
    simp only [List.map_cons, h c (List.mem_cons_self _ _),
      ih fun d hd => h d (List.mem_cons_of_mem _ hd)]

lemma mem_joinSpace : ∀ (ws : List (List Char)) (c : Char), c ∈ joinSpace ws →
    (∃ w ∈ ws, c ∈ w) ∨ c = ' ' := by
  intro ws
  induction ws with
  | nil => intro c h; simp [joinSpace] at h
  | cons w ws ih =>
    intro c h
    cases ws with
    | nil =>
      simp only [joinSpace] at h
      exact .inl ⟨w, List.mem_cons_self _ _, h⟩
    | cons w2 ws2 =>
      simp only [joinSpace] at h
      rw [List.mem_append] at h
      rcases h with h | h
      · exact .inl ⟨w, List.mem_cons_self _ _, h⟩
      · rcases List.mem_cons.mp h with rfl | h
        · exact .inr rfl
        · rcases ih c h with ⟨w3, hw3, hc⟩ | h
          · exact .inl ⟨w3, List.mem_cons_of_mem _ hw3, hc⟩
          · exact .inr h

lemma subNonAlnumGo_chars : ∀ (l : List Char) (flag : Bool) (c : Char),
    c ∈ subNonAlnumGo flag l → isLowerAlnum c = true ∨ c = ' ' := by
  intro l
  induction l with
  | nil => intro flag c h; simp [subNonAlnumGo] at h
  | cons d ds ih =>
    intro flag c h
    simp only [subNonAlnumGo] at h
    by_cases hd : isLowerAlnum d = true
    · rw [if_pos hd] at h
      rcases List.mem_cons.mp h with rfl | h
      · exact .inl hd
      · exact ih false c h
    · rw [if_neg hd] at h
      cases flag with
      | true => exact ih true c (by simpa using h)
      | false =>
        rcases List.mem_cons.mp (by simpa using h) with rfl | h2
        · exact .inr rfl
        · exact ih true c h2

lemma pySplitGo_words : ∀ (l acc : List Char),
    (∀ c ∈ l, isLowerAlnum c = true ∨ c = ' ') → (∀ c ∈ acc, isLowerAlnum c = true) →
    ∀ w ∈ pySplitGo acc l, w ≠ [] ∧ ∀ c ∈ w, isLowerAlnum c = true := by
  intro l
  induction l with
  | nil =>
    intro acc _ hacc w hw
    simp only [pySplitGo] at hw
    split at hw
    · simp at hw
    · rename_i hne
      rw [List.mem_singleton] at hw
      subst hw
      refine ⟨by simpa using hne, ?_⟩
      intro c hc
      exact hacc c (List.mem_reverse.mp hc)
  | cons d ds ih =>
    intro acc hl hacc w hw
    have htail : ∀ c ∈ ds, isLowerAlnum c = true ∨ c = ' ' :=
      fun c hc => hl c (List.mem_cons_of_mem _ hc)
    simp only [pySplitGo] at hw
    by_cases hd : pyIsSpace d = true
    · rw [if_pos hd] at hw
      split at hw
      · exact ih [] htail (by simp) w hw
      · rename_i hne
        rcases List.mem_cons.mp hw with rfl | hw2
        · refine ⟨by simpa using hne, ?_⟩
          intro c hc
          exact hacc c (List.mem_reverse.mp hc)
        · exact ih [] htail (by simp) w hw2
    · rw [if_neg hd] at hw
      have hda : isLowerAlnum d = true := by
        rcases hl d (List.mem_cons_self _ _) with h | rfl
        · exact h
        · exact absurd (by decide : pyIsSpace ' ' = true) hd
      refine ih (d :: acc) htail ?_ w hw
      intro c hc
      rcases List.mem_cons.mp hc with rfl | hc
      · exact hda
      · exact hacc c hc

lemma subNonAlnumGo_append_word : ∀ (w : List Char) (flag : Bool) (l : List Char),
    (∀ c ∈ w, isLowerAlnum c = true) →
    subNonAlnumGo flag (w ++ l) = w ++ subNonAlnumGo (if w.isEmpty then flag else false) l := by
  intro w
  induction w with
  | nil => intro flag l _; simp
  | cons c cs ih =>
    intro flag l hw
    have hc : isLowerAlnum c = true := hw c (List.mem_cons_self _ _)
    simp only [List.cons_append, subNonAlnumGo, List.append_eq]
    rw [if_pos hc, ih false l fun d hd => hw d (List.mem_cons_of_mem _ hd)]
    simp [ite_self]

lemma isLowerAlnum_space : isLowerAlnum ' ' = false := by decide

lemma subNonAlnumGo_joinSpace : ∀ (ws : List (List Char)) (flag : Bool),
    (∀ w ∈ ws, w ≠ [] ∧ ∀ c ∈ w, isLowerAlnum c = true) →
    subNonAlnumGo flag (joinSpace ws) = joinSpace ws := by
  intro ws
  induction ws with
  | nil => intro flag _; rfl
  | cons w ws ih =>
    intro flag h
    have hw := h w (List.mem_cons_self _ _)
    have hwE : w.isEmpty = false := by
      cases w with
      | nil => exact absurd rfl hw.1
      | cons x xs => rfl
    cases ws with
    | nil =>
      show subNonAlnumGo flag w = w
      have := subNonAlnumGo_append_word w flag [] hw.2
      rw [List.append_nil] at this
      rw [this, hwE]
      simp [subNonAlnumGo]
    | cons w2 ws2 =>
      simp only [joinSpace]
      rw [subNonAlnumGo_append_word w flag (' ' :: joinSpace (w2 :: ws2)) hw.2, hwE]
      simp only [Bool.false_eq_true, if_false, subNonAlnumGo, isLowerAlnum_space]
      rw [ih true fun v hv => h v (List.mem_cons_of_mem _ hv)]

lemma pySplitGo_append_word : ∀ (w acc l : List Char),
    (∀ c ∈ w, pyIsSpace c = false) →
    pySplitGo acc (w ++ l) = pySplitGo (w.reverse ++ acc) l := by
  intro w
  induction w with
  | nil => intro acc l _; simp
  | cons c cs ih =>
    intro acc l hw
    have hc : pyIsSpace c = false := hw c (List.mem_cons_self _ _)
    simp only [List.cons_append, pySplitGo, hc, Bool.false_eq_true, if_false, List.append_eq]
    rw [ih (c :: acc) l fun d hd => hw d (List.mem_cons_of_mem _ hd)]
    congr 1
    simp

lemma pyIsSpace_space : pyIsSpace ' ' = true := by decide

lemma pySplit_joinSpace : ∀ ws : List (List Char),
    (∀ w ∈ ws, w ≠ [] ∧ ∀ c ∈ w, isLowerAlnum c = true) →
    pySplit (joinSpace ws) = ws := by
  intro ws
  induction ws with
  | nil => intro _; rfl
  | cons w ws ih =>
    intro h
    have hw := h w (List.mem_cons_self _ _)
    have hwspace : ∀ c ∈ w, pyIsSpace c = false :=
      fun c hc => isLowerAlnum_not_space (hw.2 c hc)
    have hrne : w.reverse ≠ [] := by simpa using hw.1
    cases ws with
    | nil =>
      show pySplitGo [] (joinSpace [w]) = [w]
      simp only [joinSpace]
      have := pySplitGo_append_word w [] [] hwspace
      rw [List.append_nil, List.append_nil] at this
      rw [this]
      simp only [pySplitGo]
      rw [if_neg hrne, List.reverse_reverse]
    | cons w2 ws2 =>
      show pySplitGo [] (joinSpace (w :: w2 :: ws2)) = w :: w2 :: ws2
      simp only [joinSpace]
      rw [pySplitGo_append_word w [] (' ' :: joinSpace (w2 :: ws2)) hwspace, List.append_nil]
      simp only [pySplitGo, pyIsSpace_space, if_true]
      rw [if_neg hrne, List.reverse_reverse]
      have := ih fun v hv => h v (List.mem_cons_of_mem _ hv)
      rw [show pySplitGo [] (joinSpace (w2 :: ws2)) = pySplit (joinSpace (w2 :: ws2)) from rfl,
        this]

lemma normalize_words (s : List Char) :
    ∀ w ∈ pySplit (subNonAlnum ((s.flatMap nfkdAscii).map pyLower)),
      w ≠ [] ∧ ∀ c ∈ w, isLowerAlnum c = true := by
  intro w hw
  exact pySplitGo_words _ [] (fun c hc => subNonAlnumGo_chars _ false c hc) (by simp) w hw

lemma normalize_text_fixed (ws : List (List Char))
    (h : ∀ w ∈ ws, w ≠ [] ∧ ∀ c ∈ w, isLowerAlnum c = true) :
    _normalize_text (joinSpace ws) = joinSpace ws := by
  have hchars : ∀ c ∈ joinSpace ws, isLowerAlnum c = true ∨ c = ' ' := by
    intro c hc
    rcases mem_joinSpace ws c hc with ⟨w, hwmem, hcw⟩ | rfl
    · exact .inl ((h w hwmem).2 c hcw)
    · exact .inr rfl
  simp only [_normalize_text, subNonAlnum]
  rw [flatMap_id_of_fixed _ fun c hc => nfkdAscii_fixed (hchars c hc)]
  rw [map_id_of_fixed _ fun c hc => pyLower_fixed (hchars c hc)]
  rw [show subNonAlnumGo false (joinSpace ws) = joinSpace ws from
    subNonAlnumGo_joinSpace ws false h]
  exact congrArg joinSpace (pySplit_joinSpace ws h)

lemma normalize_idem (s : List Char) :
    _normalize_text (_normalize_text s) = _normalize_text s :=
  normalize_text_fixed (pySplit (subNonAlnum ((s.flatMap nfkdAscii).map pyLower)))
    (normalize_words s)

lemma subNonAlnumGo_all_non : ∀ l : List Char, (∀ c ∈ l, isLowerAlnum c = false) →
    subNonAlnumGo true l = [] ∧
    subNonAlnumGo false l = if l = [] then [] else [' '] := by
  intro l
  induction l with
  | nil => intro _; exact ⟨rfl, rfl⟩
  | cons c cs ih =>
    intro h
    have hc := h c (List.mem_cons_self _ _)
    obtain ⟨ih1, -⟩ := ih fun d hd => h d (List.mem_cons_of_mem _ hd)
    constructor
    · simp only [subNonAlnumGo, hc, Bool.false_eq_true, if_false, if_true]
      exact ih1
    · simp only [subNonAlnumGo, hc, Bool.false_eq_true, if_false]
      rw [ih1]
      simp

lemma normalize_punct_empty (s : List Char)
    (h : ∀ c ∈ s, c.toNat < 128 ∧ isLowerAlnum c = false ∧ ¬(65 ≤ c.toNat ∧ c.toNat ≤ 90)) :
    _normalize_text s = [] := by
  simp only [_normalize_text, subNonAlnum]
  rw [flatMap_id_of_fixed _ fun c hc => by
    simp only [nfkdAscii]; rw [if_pos (h c hc).1]]
  rw [map_id_of_fixed _ fun c hc => by
    simp only [pyLower]; rw [if_neg (h c hc).2.2]]
  obtain ⟨-, h2⟩ := subNonAlnumGo_all_non s fun c hc => (h c hc).2.1
  rw [h2]
  split <;> rfl

/-! ## Unfolding `_search_single` -/

lemma search_single_empty (m : ClothingPriceModel) (b t : List Char) (ms : ℚ)
    (h : b = [] ∨ t = []) : m._search_single b t ms = (.result none, []) := by
  simp only [ClothingPriceModel._search_single]
  rw [if_pos h]

lemma search_single_fetch_eq (m : ClothingPriceModel) (b t : List Char) (ms : ℚ)
    (hb : b ≠ []) (ht : t ≠ []) :
    (m._search_single b t ms).1 =
      match (m._fetch_products b t).1 with
      | .remoteError => .result none
      | .typeError => .crash
      | .ok products =>
        match scanLoop (_normalize_text b) (_normalize_text t) ms products none with
        | none => .result none
        | some best =>
          if best.2 < ms then .result none
          else .result (some ⟨best.1.brand, best.1.title, best.1.price, best.2⟩) := by
  simp only [ClothingPriceModel._search_single]
  rw [if_neg (not_or.mpr ⟨hb, ht⟩)]
  cases hf : (m._fetch_products b t).1 with
  | remoteError => simp [hf]
  | typeError => simp [hf]
  | ok products =>
    simp only [hf]
    cases hscan : scanLoop (_normalize_text b) (_normalize_text t) ms products none with
    | none => simp [hscan]
    | some best =>
      simp only [hscan]
      by_cases hlt : best.2 < ms <;> simp [hlt]

lemma search_result_some {m : ClothingPriceModel} {b t : List Char} {ms : ℚ} {r : SearchResult}
    (h : (m._search_single b t ms).1 = .result (some r)) :
    b ≠ [] ∧ t ≠ [] ∧ ∃ ps, (m._fetch_products b t).1 = .ok ps ∧
      ∃ p, p ∈ ps ∧ candidateScore (_normalize_text b) (_normalize_text t) ms p = some r.score ∧
        r.brand = p.brand ∧ r.title = p.title ∧ r.price = p.price ∧ ¬ r.score < ms := by
  by_cases hb : b = []
  · rw [search_single_empty m b t ms (.inl hb)] at h
    simp at h
  by_cases ht : t = []
  · rw [search_single_empty m b t ms (.inr ht)] at h
    simp at h
  rw [search_single_fetch_eq m b t ms hb ht] at h
  refine ⟨hb, ht, ?_⟩
  split at h
  · simp at h
  · simp at h
  rename_i ps hf
  refine ⟨ps, hf, ?_⟩
  split at h
  · simp at h
  rename_i best hscan
  split at h
  · simp at h
  rename_i hlt
  simp only [SearchOutcome.result.injEq, Option.some.injEq] at h
  rcases scanLoop_result_src (_normalize_text b) (_normalize_text t) ms ps none best.1 best.2
      (by rw [hscan]) with h1 | h2
  · simp at h1
  refine ⟨best.1, h2.1, ?_, ?_, ?_, ?_, ?_⟩
  · rw [← h]; exact h2.2
  · rw [← h]
  · rw [← h]
  · rw [← h]
  · rw [← h]; exact hlt

/-! ## The batch loop -/

lemma batch_search_append (m : ClothingPriceModel) (ms : ℚ) :
    ∀ xs ys, (m.batch_search (xs ++ ys) ms).1 =
      match (m.batch_search xs ms).1 with
      | .error e => .error e
      | .ok rx =>
        match (m.batch_search ys ms).1 with
        | .error e => .error e
        | .ok ry => .ok (rx ++ ry) := by
  intro xs
  induction xs with
  | nil =>
    intro ys
    simp only [List.nil_append, ClothingPriceModel.batch_search]
    cases hys : (m.batch_search ys ms).1 <;> simp [hys]
  | cons q qs ih =>
    intro ys
    simp only [List.cons_append, ClothingPriceModel.batch_search]
    cases hone : (m._search_single q.1 q.2 ms).1 with
    | crash => simp
    | result r =>
      have hih := ih ys
      cases hqy : (m.batch_search (qs ++ ys) ms).1 with
      | error e =>
        rw [hqy] at hih
        cases hq : (m.batch_search qs ms).1 with
        | error e2 => simp
        | ok rx =>
          rw [hq] at hih
          cases hy : (m.batch_search ys ms).1 with
          | error e2 => simp
          | ok ry =>
            rw [hy] at hih
            simp at hih
      | ok rs =>
        rw [hqy] at hih
        cases hq : (m.batch_search qs ms).1 with
        | error e2 =>
          rw [hq] at hih
          simp at hih
        | ok rx =>
          rw [hq] at hih
          cases hy : (m.batch_search ys ms).1 with
          | error e2 =>
            rw [hy] at hih
            simp at hih
          | ok ry =>
            rw [hy] at hih
            simp at hih
            simp [hih]

lemma fetch_products_eq (m : ClothingPriceModel) (b t : List Char) :
    m._fetch_products b t =
      (match m.http_get m.base_url (queryString b t) m.limit m.timeout with
       | .remoteError => .remoteError
       | .payload payload =>
         match pyIterOpt (productsValue payload) with
         | none => .typeError
         | some items => .ok (items.filterMap parseProduct),
       [queryString b t]) := rfl

lemma search_no_crash (m : ClothingPriceModel) (b t : List Char) (ms : ℚ)
    (hw : WellFormedFetch m) : (m._search_single b t ms).1 ≠ .crash := by
  by_cases hb : b = []
  · rw [search_single_empty m b t ms (.inl hb)]; simp
  by_cases ht : t = []
  · rw [search_single_empty m b t ms (.inr ht)]; simp
  rw [search_single_fetch_eq m b t ms hb ht]
  have hfetch : (m._fetch_products b t).1 ≠ .typeError := by
    rw [fetch_products_eq]
    cases hg : m.http_get m.base_url (queryString b t) m.limit m.timeout with
    | remoteError => simp
    | payload p =>
      obtain ⟨items, hitems⟩ := Option.isSome_iff_exists.mp (hw _ _ _ _ p hg)
      simp [hitems]
  rcases hf : (m._fetch_products b t).1 with _ | _ | ps
  · simp
  · exact absurd hf hfetch
  · simp only []
    cases hscan : scanLoop (_normalize_text b) (_normalize_text t) ms ps none with
    | none => simp
    | some best => by_cases hlt : best.2 < ms <;> simp [hlt]

lemma batch_search_map (m : ClothingPriceModel) (ms : ℚ) (hw : WellFormedFetch m) :
    ∀ qs : List (List Char × List Char),
      (m.batch_search qs ms).1 =
        .ok (qs.map fun q => resultOf (m._search_single q.1 q.2 ms).1) := by
  intro qs
  induction qs with
  | nil => rfl
  | cons q qs ih =>
    simp only [ClothingPriceModel.batch_search, List.map_cons]
    cases hone : (m._search_single q.1 q.2 ms).1 with
    | crash => exact absurd hone (search_no_crash m q.1 q.2 ms hw)
    | result r =>
      cases hqs : (m.batch_search qs ms).1 with
      | error e => rw [hqs] at ih; simp at ih
      | ok rs =>
        rw [hqs] at ih
        simp only [Except.ok.injEq] at ih
        simp [resultOf, ih]

/-! ## The claims -/

/-- C1: for every brand, title and `min_score`, if `search` returns a
MatchResult rather than none, then that result's score is at least `min_score`
and lies in the interval `[0, 1]`. -/
theorem search_score_bounded (m : ClothingPriceModel) (b t : List Char) (ms : ℚ)
    (r : SearchResult) (h : (m._search_single b t ms).1 = .result (some r)) :
    ms ≤ r.score ∧ 0 ≤ r.score ∧ r.score ≤ 1 := by
  obtain ⟨-, -, ps, -, p, -, hcs, -, -, -, hge⟩ := search_result_some h
  obtain ⟨h0, h1⟩ := candidateScore_bounds hcs
  exact ⟨not_lt.mp hge, h0, h1⟩

set_option maxRecDepth 10000 in
unseal Rat.mul Rat.inv Rat.add Rat.sub Rat.ofScientific in
theorem search_score_bounded_witness :
    (0.3 : ℚ) ≤ simpleResult.score ∧ 0 ≤ simpleResult.score ∧ simpleResult.score ≤ 1 :=
  search_score_bounded simpleModel strAb strCd 0.3 simpleResult (by decide)

/-- C2: a candidate whose normalized brand is exactly the normalized query
brand is never discarded because of a low `brand_score` (its brand score is
`1` and the brand filter's exemption applies even when the token-based score
would fall below `min_score`); it stays eligible, is skipped only when its
title score is below `min_score`, and when its title score passes, the search
returns a match whose score is at least this candidate's combined score. -/
theorem exact_brand_never_filtered (m : ClothingPriceModel) (b t : List Char) (ms : ℚ)
    (ps : List _Product) (p : _Product)
    (hf : (m._fetch_products b t).1 = .ok ps) (hmem : p ∈ ps)
    (hx : _normalize_text p.brand = _normalize_text b)
    (hts : ¬ titleScore (_normalize_text t) p < ms)
    (hb : b ≠ []) (ht : t ≠ []) (hms : ms ≤ 1) :
    candidateScore (_normalize_text b) (_normalize_text t) ms p =
      some (0.5 * 1 + 0.5 * titleScore (_normalize_text t) p) ∧
    ∃ r, (m._search_single b t ms).1 = .result (some r) ∧
      0.5 * 1 + 0.5 * titleScore (_normalize_text t) p ≤ r.score := by
  have hcs : candidateScore (_normalize_text b) (_normalize_text t) ms p =
      some (0.5 * 1 + 0.5 * titleScore (_normalize_text t) p) := by
    rw [candidateScore_exact_brand hx, if_neg hts]
  refine ⟨hcs, ?_⟩
  obtain ⟨q, s2, hscan, hs2⟩ :=
    scanLoop_lower_bound (_normalize_text b) (_normalize_text t) ms ps none p _ hmem hcs
  have htms : ms ≤ titleScore (_normalize_text t) p := not_lt.mp hts
  have hmss : ms ≤ s2 := by linarith
  refine ⟨⟨q.brand, q.title, q.price, s2⟩, ?_, hs2⟩
  rw [search_single_fetch_eq m b t ms hb ht]
  simp only [hf, hscan]
  rw [if_neg (not_lt.mpr hmss)]

set_option maxRecDepth 10000 in
unseal Rat.mul Rat.inv Rat.add Rat.sub Rat.ofScientific in
theorem exact_brand_never_filtered_witness :
    candidateScore (_normalize_text strQR) (_normalize_text strAbCd) 0.3 prodExactP =
      some (0.5 * 1 + 0.5 * titleScore (_normalize_text strAbCd) prodExactP) ∧
    ∃ r, (cexModel._search_single strQR strAbCd 0.3).1 = .result (some r) ∧
      0.5 * 1 + 0.5 * titleScore (_normalize_text strAbCd) prodExactP ≤ r.score :=
  exact_brand_never_filtered cexModel strQR strAbCd 0.3 [prodExactP, prodNearP] prodExactP
    (by decide) (by decide) (by decide) (by decide) (by decide) (by decide) (by decide)

set_option maxRecDepth 10000 in
unseal Rat.mul Rat.inv Rat.add Rat.sub Rat.ofScientific in
/-- C3 counterexample: lowering the threshold can change which match is
returned, so the previously-returned match is not always returned again.  At
threshold `1/2` the search returns the `prodNear` result (score `133/195`);
at threshold `0` — a lower threshold over the same candidate list — it
returns the `prodExact` result instead (score `53/75`), because the
exact-brand candidate, filtered at `1/2` by its low title score, re-enters
with a higher combined score. -/
theorem threshold_monotonicity_counterexample :
    (0 : ℚ) ≤ 1 / 2 ∧
    (cexModel._search_single strQR strAbCd (1 / 2)).1 = .result (some cexResNear) ∧
    (cexModel._search_single strQR strAbCd 0).1 = .result (some cexResExact) ∧
    cexResNear ≠ cexResExact :=
  ⟨by norm_num, by decide, by decide, by decide⟩

/-- C3 (amended): `search(b, ti, t)` returns a result only if its score is at
least `t`; and for every `t' ≤ t` over the same candidate list, whenever
`search(b, ti, t)` returns a match, `search(b, ti, t')` also returns a match,
whose score is at least the score returned at `t` — but it may be a different
candidate, since the lower threshold can admit a candidate with a higher
combined score. -/
theorem threshold_monotonicity_amended (m : ClothingPriceModel) (b t : List Char)
    (ms ms' : ℚ) (r : SearchResult) (hle : ms' ≤ ms)
    (h : (m._search_single b t ms).1 = .result (some r)) :
    ms ≤ r.score ∧
    ∃ r2, (m._search_single b t ms').1 = .result (some r2) ∧ r.score ≤ r2.score := by
  obtain ⟨hb, ht, ps, hf, p, hmem, hcs, -, -, -, hge⟩ := search_result_some h
  refine ⟨not_lt.mp hge, ?_⟩
  have hcs' := candidateScore_mono hle hcs
  obtain ⟨q, s2, hscan', hs2⟩ :=
    scanLoop_lower_bound (_normalize_text b) (_normalize_text t) ms' ps none p r.score
      hmem hcs'
  have hnot : ¬ s2 < ms' := not_lt.mpr (le_trans hle (le_trans (not_lt.mp hge) hs2))
  refine ⟨⟨q.brand, q.title, q.price, s2⟩, ?_, hs2⟩
  rw [search_single_fetch_eq m b t ms' hb ht]
  simp only [hf, hscan']
  rw [if_neg hnot]

set_option maxRecDepth 10000 in
unseal Rat.mul Rat.inv Rat.add Rat.sub Rat.ofScientific in
theorem threshold_monotonicity_amended_witness :
    (1 / 2 : ℚ) ≤ cexResNear.score ∧
    ∃ r2, (cexModel._search_single strQR strAbCd 0).1 = .result (some r2) ∧
      cexResNear.score ≤ r2.score :=
  threshold_monotonicity_amended cexModel strQR strAbCd (1 / 2) 0 cexResNear (by norm_num)
    (by decide)

/-- C4: when the remote fetch raises `RemoteLookupError`, `search` returns
none for that query (the failure is swallowed, not propagated), and in a
batch the failing query contributes a none entry while the queries before and
after it are processed exactly as they would be on their own. -/
theorem remote_failure_swallowed (m : ClothingPriceModel) (b t : List Char) (ms : ℚ)
    (pre post : List (List Char × List Char)) (rs1 rs2 : List (Option SearchResult))
    (hfail : m.http_get m.base_url (queryString b t) m.limit m.timeout = .remoteError)
    (h1 : (m.batch_search pre ms).1 = .ok rs1)
    (h2 : (m.batch_search post ms).1 = .ok rs2) :
    (m._search_single b t ms).1 = .result none ∧
    (m.batch_search (pre ++ (b, t) :: post) ms).1 = .ok (rs1 ++ none :: rs2) := by
  have hsearch : (m._search_single b t ms).1 = .result none := by
    by_cases hb : b = []
    · rw [search_single_empty m b t ms (.inl hb)]
    by_cases ht : t = []
    · rw [search_single_empty m b t ms (.inr ht)]
    rw [search_single_fetch_eq m b t ms hb ht, fetch_products_eq]
    simp [hfail]
  refine ⟨hsearch, ?_⟩
  have hbatch1 : (m.batch_search ((b, t) :: post) ms).1 = .ok (none :: rs2) := by
    simp only [ClothingPriceModel.batch_search, hsearch, h2]
  rw [batch_search_append m ms pre ((b, t) :: post)]
  simp only [h1, hbatch1]

theorem remote_failure_swallowed_witness :
    (failModel._search_single strAb strCd (0.3 : ℚ)).1 = .result none ∧
    (failModel.batch_search ([(strAb, strCd)] ++ (strAb, strCd) :: []) (0.3 : ℚ)).1 =
      .ok ([none] ++ none :: []) :=
  remote_failure_swallowed failModel strAb strCd 0.3 [(strAb, strCd)] [] [none] []
    rfl rfl rfl

/-- C5: a returned MatchResult's brand, title and price are exactly the
winning candidate's original (parsed, non-normalized) fields as delivered by
the remote API, and its score is the candidate's combined
`0.5 * brand_score + 0.5 * title_score`. -/
theorem result_fields_from_winner (m : ClothingPriceModel) (b t : List Char) (ms : ℚ)
    (ps : List _Product) (r : SearchResult)
    (hf : (m._fetch_products b t).1 = .ok ps)
    (h : (m._search_single b t ms).1 = .result (some r)) :
    ∃ p ∈ ps, r.brand = p.brand ∧ r.title = p.title ∧ r.price = p.price ∧
      r.score = 0.5 * brandScore (_normalize_text b) p +
        0.5 * titleScore (_normalize_text t) p := by
  obtain ⟨-, -, ps2, hf2, p, hmem, hcs, hbr, hti, hpr, -⟩ := search_result_some h
  rw [hf] at hf2
  injection hf2 with hf2
  subst hf2
  exact ⟨p, hmem, hbr, hti, hpr, (candidateScore_eq_some hcs).1⟩

set_option maxRecDepth 10000 in
unseal Rat.mul Rat.inv Rat.add Rat.sub Rat.ofScientific in
theorem result_fields_from_winner_witness :
    ∃ p ∈ [simpleProdP], simpleResult.brand = p.brand ∧ simpleResult.title = p.title ∧
      simpleResult.price = p.price ∧
      simpleResult.score = 0.5 * brandScore (_normalize_text strAb) p +
        0.5 * titleScore (_normalize_text strCd) p :=
  result_fields_from_winner simpleModel strAb strCd 0.3 [simpleProdP] simpleResult
    (by decide) (by decide)

/-- C6: a query with an empty brand or an empty title returns none
immediately, and the injected fetch function is never invoked for it (the
trace of `http_get` calls is empty). -/
theorem empty_query_no_fetch (m : ClothingPriceModel) (b t : List Char) (ms : ℚ)
    (h : b = [] ∨ t = []) : m._search_single b t ms = (.result none, []) :=
  search_single_empty m b t ms h

theorem empty_query_no_fetch_witness :
    simpleModel._search_single [] strCd (0.3 : ℚ) = (.result none, []) :=
  empty_query_no_fetch simpleModel [] strCd 0.3 (.inl rfl)

/-- C7: `_normalize_text` is total — as a Lean function it is defined on every
input; the empty string normalizes to the empty string, and a string of
ASCII non-alphanumeric characters (punctuation only) normalizes to the empty
string — and it is idempotent: `normalize (normalize x) = normalize x`. -/
theorem normalize_total_idempotent :
    (∀ x : List Char, _normalize_text (_normalize_text x) = _normalize_text x) ∧
    _normalize_text [] = [] ∧
    (∀ x : List Char,
      (∀ c ∈ x, c.toNat < 128 ∧ isLowerAlnum c = false ∧ ¬(65 ≤ c.toNat ∧ c.toNat ≤ 90)) →
      _normalize_text x = []) :=
  ⟨normalize_idem, rfl, normalize_punct_empty⟩

theorem normalize_total_idempotent_witness : _normalize_text strPunct = [] :=
  normalize_total_idempotent.2.2 strPunct (by decide)

/-- C8: under the remote payload contract of spec sections 4.5 and 6
(successful fetches decode to payloads whose `products` value is iterable),
a batch of N queries returns exactly N results, in input order, the i-th
being the outcome of one independent `_search_single` call on the i-th query;
the matcher is pure, so no state or result is shared across queries and
repeated queries are searched again, not deduplicated. -/
theorem batch_length_order_independent (m : ClothingPriceModel)
    (qs : List (List Char × List Char)) (ms : ℚ) (hw : WellFormedFetch m) :
    (m.batch_search qs ms).1 =
      .ok (qs.map fun q => resultOf (m._search_single q.1 q.2 ms).1) ∧
    (qs.map fun q => resultOf (m._search_single q.1 q.2 ms).1).length = qs.length :=
  ⟨batch_search_map m ms hw qs, List.length_map _ _⟩

set_option maxRecDepth 10000 in
unseal Rat.mul Rat.inv Rat.add Rat.sub Rat.ofScientific in
theorem batch_length_order_independent_witness :
    (simpleModel.batch_search [(strAb, strCd), ([], strCd)] (0.3 : ℚ)).1 =
      .ok ([(strAb, strCd), ([], strCd)].map fun q =>
        resultOf (simpleModel._search_single q.1 q.2 (0.3 : ℚ)).1) ∧
    ([(strAb, strCd), ([], strCd)].map fun q =>
        resultOf (simpleModel._search_single q.1 q.2 (0.3 : ℚ)).1).length =
      [(strAb, strCd), ([], strCd)].length :=
  batch_length_order_independent simpleModel [(strAb, strCd), ([], strCd)] 0.3
    (by intro url q lim tmo p hp; cases hp; decide)

/-- C9: construction fails with `ValueError` exactly when the limit or the
timeout is non-positive, and succeeds — producing the matcher with exactly the
given immutable configuration — exactly when both are positive, so no
configuration failure can surface later on a per-query basis. -/
theorem init_validates_config (bu : List Char) (l : Int) (t : ℚ) (hg : HttpGet) :
    ((l ≤ 0 ∨ t ≤ 0) ↔ ∃ e, ClothingPriceModel.init bu l t hg = .error e) ∧
    ((0 < l ∧ 0 < t) ↔ ClothingPriceModel.init bu l t hg = .ok ⟨bu, l, t, hg⟩) := by
  simp only [ClothingPriceModel.init]
  by_cases h1 : l ≤ 0
  · rw [if_pos h1]
    constructor
    · constructor
      · intro _; exact ⟨_, rfl⟩
      · intro _; exact .inl h1
    · constructor
      · rintro ⟨hl, -⟩; omega
      · intro h; simp at h
  · rw [if_neg h1]
    by_cases h2 : t ≤ 0
    · rw [if_pos h2]
      constructor
      · constructor
        · intro _; exact ⟨_, rfl⟩
        · intro _; exact .inr h2
      · constructor
        · rintro ⟨-, ht⟩; exact absurd h2 (not_le.mpr ht)
        · intro h; simp at h
    · rw [if_neg h2]
      push_neg at h1 h2
      constructor
      · constructor
        · rintro (h | h)
          · exact absurd h (not_le.mpr h1)
          · exact absurd h (not_le.mpr h2)
        · rintro ⟨e, he⟩; simp at he
      · constructor
        · intro _; rfl
        · intro _; exact ⟨h1, h2⟩

theorem init_validates_config_witness :
    ClothingPriceModel.init [] 10 10 (fun _ _ _ _ => .remoteError) =
      .ok ⟨[], 10, 10, fun _ _ _ _ => .remoteError⟩ :=
  (init_validates_config [] 10 10 (fun _ _ _ _ => .remoteError)).2.mp (by norm_num)

/-- C10: if the decoded payload is not a JSON object, or is an object without
a `products` key, the candidate list is empty and the search returns none —
this is treated as zero candidates, not as an error. -/
theorem missing_products_zero_candidates (m : ClothingPriceModel) (b t : List Char)
    (ms : ℚ) (payload : Json)
    (hg : m.http_get m.base_url (queryString b t) m.limit m.timeout = .payload payload)
    (hshape : (∀ fs, payload ≠ .obj fs) ∨
      ∃ fs, payload = .obj fs ∧ jsonGet fs keyProducts = none) :
    (m._fetch_products b t).1 = .ok [] ∧ (m._search_single b t ms).1 = .result none := by
  have hpv : productsValue payload = .arr [] := by
    rcases hshape with h | ⟨fs, rfl, hnone⟩
    · cases payload with
      | obj fs => exact absurd rfl (h fs)
      | arr xs => rfl
      | str s => rfl
      | num q => rfl
      | bool v => rfl
      | null => rfl
    · simp [productsValue, hnone]
  have hf : (m._fetch_products b t).1 = .ok [] := by
    rw [fetch_products_eq]
    simp [hg, hpv, pyIterOpt]
  refine ⟨hf, ?_⟩
  by_cases hb : b = []
  · rw [search_single_empty m b t ms (.inl hb)]
  by_cases ht : t = []
  · rw [search_single_empty m b t ms (.inr ht)]
  rw [search_single_fetch_eq m b t ms hb ht]
  simp only [hf]
  rfl

theorem missing_products_zero_candidates_witness :
    (noProductsModel._fetch_products strAb strCd).1 = .ok [] ∧
    (noProductsModel._search_single strAb strCd (0.3 : ℚ)).1 = .result none :=
  missing_products_zero_candidates noProductsModel strAb strCd 0.3 (.arr [])
    rfl (.inl fun fs h => Json.noConfusion h)

end Pricing
